import Mathlib

/-!
Verification development for the `lottr` batch-translation orchestrator.

The Rust sources are shallowly embedded: pure fragments become Lean
functions, the stateful loops become explicit state passing with fuel
where the source loop's index jumps, byte offsets are `Nat`, and file
contents are lists.  Definitions follow the Rust code (`src/textures.rs`,
`src/inputs/input.rs`, `src/translator/chatgpt.rs`, `src/output/output.rs`,
`src/output/mtool.rs`, `src/output/kiri.rs`, `src/lib.rs`); where the Rust
code would panic (out-of-bounds index) or block forever (reading past end
of file) the embedding uses a total default or fuel, and every theorem's
hypotheses keep the inputs inside the domain where the embedding and the
source agree.
-/

namespace Lottr

/-! ## Data model (src/textures.rs) -/

/-- `Translator` tag (src/translator/mod.rs): a single variant. -/
inductive Translator where
  | ChatGPT
deriving DecidableEq

/-- `TranslatedLine` (src/textures.rs): one translator's result for one
batch; `batch_range` is the inclusive `(start, end)` pair of line indices. -/
structure TranslatedLine where
  translator : Translator
  content : String
  batch_range : Nat × Nat
deriving DecidableEq

/-- `TextureLine` (src/textures.rs): one extracted source line. -/
structure TextureLine where
  seek : Nat
  size : Nat
  content : String
  skip : Bool
  translated : List TranslatedLine
deriving DecidableEq

instance : Inhabited TextureLine := ⟨⟨0, 0, "", false, []⟩⟩

/-- `Textures` (src/textures.rs). -/
structure Textures where
  lines : List TextureLine
  curr_index : Nat
  name : String
deriving DecidableEq

/-- Replace-in-place-or-append step of `Textures::update`: the first
entry with the same translator gets the new content and batch range;
otherwise the change is pushed at the end. -/
def upsert (ts : List TranslatedLine) (change : TranslatedLine) : List TranslatedLine :=
  match ts with
  | [] => [change]
  | t :: rest =>
    if t.translator = change.translator then
      { t with content := change.content, batch_range := change.batch_range } :: rest
    else
      t :: upsert rest change

/-- Functional update of one list position (Rust's `self.lines[i]` mutation).
The source indexes unconditionally and would panic out of bounds; here an
out-of-range index leaves the list unchanged, and theorems hypothesise
in-range indices. -/
def listModify (f : α → α) : List α → Nat → List α
  | [], _ => []
  | a :: l, 0 => f a :: l
  | a :: l, n + 1 => a :: listModify f l n

/-- `Textures::update` (src/textures.rs lines 28-40): set
`curr_index := change.batch_range.1` and replace-or-append the change in
`lines[change.batch_range.0].translated`. -/
def Textures.update (t : Textures) (change : TranslatedLine) : Textures :=
  { t with
    curr_index := change.batch_range.2,
    lines := listModify
      (fun line => { line with translated := upsert line.translated change })
      t.lines change.batch_range.1 }

lemma upsert_upsert (ts : List TranslatedLine) (c : TranslatedLine) :
    upsert (upsert ts c) c = upsert ts c := by
  induction ts with
  | nil => simp [upsert]
  | cons t rest ih =>
    by_cases h : t.translator = c.translator
    · simp [upsert, h]
    · simp [upsert, h, ih]

lemma listModify_listModify (f g : α → α) (l : List α) (n : Nat) :
    listModify f (listModify g l n) n = listModify (fun a => f (g a)) l n := by
  induction l generalizing n with
  | nil => simp [listModify]
  | cons a l ih =>
    cases n with
    | zero => simp [listModify]
    | succ n => simp [listModify, ih]

lemma listModify_congr {f g : α → α} (l : List α) (n : Nat)
    (h : ∀ a, f a = g a) : listModify f l n = listModify g l n := by
  induction l generalizing n with
  | nil => simp [listModify]
  | cons a l ih =>
    cases n with
    | zero => simp [listModify, h]
    | succ n => simp [listModify, ih]

/-- C4: for every `Textures` and every `TranslatedLine` whose batch start
is in range, applying `update` twice yields exactly the same state as
applying it once, and `curr_index` equals `batch_range.1` after either
application. -/
theorem c4_update_idempotent (t : Textures) (c : TranslatedLine)
    (h : c.batch_range.1 < t.lines.length) :
    (t.update c).update c = t.update c ∧
      (t.update c).curr_index = c.batch_range.2 ∧
      ((t.update c).update c).curr_index = c.batch_range.2 := by
  refine ⟨?_, rfl, rfl⟩
  show Textures.mk _ _ _ = Textures.mk _ _ _
  simp only [Textures.update, listModify_listModify]
  refine congrArg (fun l => Textures.mk l _ _) ?_
  apply listModify_congr
  intro a
  simp [upsert_upsert]

/-- Witness for C4 at a concrete one-line `Textures`. -/
theorem c4_update_idempotent_witness :
    (let t : Textures := ⟨[⟨0, 5, "hi", false, []⟩], 0, "f"⟩
     let c : TranslatedLine := ⟨.ChatGPT, "resp", (0, 0)⟩
     (t.update c).update c = t.update c ∧
       (t.update c).curr_index = c.batch_range.2 ∧
       ((t.update c).update c).curr_index = c.batch_range.2) :=
  c4_update_idempotent ⟨[⟨0, 5, "hi", false, []⟩], 0, "f"⟩ ⟨.ChatGPT, "resp", (0, 0)⟩
    (by decide)

/-! ## Extractor (src/inputs/input.rs) -/

/-- UTF-8 byte length of a character sequence; Rust's `read_line` returns
the byte count of the raw line. -/
def byteLen (cs : List Char) : Nat := (cs.map Char.utf8Size).sum

lemma byteLen_append (a b : List Char) :
    byteLen (a ++ b) = byteLen a + byteLen b := by
  simp [byteLen]

/-- `BufRead::read_line` splitting: each raw line keeps its trailing
newline; a final segment without a newline is still a line; empty input
yields no lines.  `acc` is the reversed portion of the current line read
so far. -/
def splitLinesGo : List Char → List Char → List (List Char)
  | [], acc => if acc = [] then [] else [acc.reverse]
  | c :: rest, acc =>
    if c = '\n' then (acc.reverse ++ ['\n']) :: splitLinesGo rest []
    else splitLinesGo rest (c :: acc)

def splitLines (cs : List Char) : List (List Char) := splitLinesGo cs []

lemma splitLinesGo_flatten (cs acc : List Char) :
    (splitLinesGo cs acc).flatten = acc.reverse ++ cs := by
  induction cs generalizing acc with
  | nil =>
    by_cases h : acc = [] <;> simp [splitLinesGo, h]
  | cons c rest ih =>
    by_cases h : c = '\n'
    · simp [splitLinesGo, h, ih]
    · simp [splitLinesGo, h, ih]

lemma splitLines_flatten (cs : List Char) : (splitLines cs).flatten = cs := by
  simp [splitLines, splitLinesGo_flatten]

lemma byteLen_flatten (L : List (List Char)) :
    byteLen L.flatten = (L.map byteLen).sum := by
  induction L with
  | nil => simp [byteLen]
  | cons l L ih => simp [byteLen_append, ih]

/-- `Input::parse` loop body (src/inputs/input.rs lines 51-77): for each
raw line of byte length `size`, keep it as a `TextureLine` when the
extractor accepts it, and advance the running offset by `size`
unconditionally.  `extract` abstracts `extract_line`. -/
def parseGo (extract : List Char → Option String) :
    List (List Char) → Nat → List TextureLine
  | [], _ => []
  | raw :: rest, seek =>
    let size := byteLen raw
    match extract raw with
    | some value => TextureLine.mk seek size value false [] :: parseGo extract rest (seek + size)
    | none => parseGo extract rest (seek + size)

/-- `Input::parse`: split the input at newlines and run the extraction
loop from offset 0; `curr_index` starts at 0 and `name` empty. -/
def parse (extract : List Char → Option String) (input : List Char) : Textures :=
  ⟨parseGo extract (splitLines input) 0, 0, ""⟩

/-- Sum of the recorded sizes of the kept lines. -/
def keptBytes (extract : List Char → Option String) (input : List Char) : Nat :=
  (((parse extract input).lines).map (fun l => l.size)).sum

/-- Bytes of the raw lines the extractor rejected. -/
def skippedBytes (extract : List Char → Option String) (input : List Char) : Nat :=
  (((splitLines input).filter (fun raw => (extract raw).isNone)).map byteLen).sum

lemma parseGo_seek_le (extract : List Char → Option String)
    (raws : List (List Char)) (seek : Nat) :
    ∀ l ∈ parseGo extract raws seek, seek ≤ l.seek := by
  induction raws generalizing seek with
  | nil => simp [parseGo]
  | cons raw rest ih =>
    intro l hl
    simp only [parseGo] at hl
    cases h : extract raw with
    | some v =>
      rw [h] at hl
      rcases List.mem_cons.mp hl with h1 | h1
      · subst h1; exact Nat.le_refl _
      · exact Nat.le_trans (Nat.le_add_right _ _) (ih _ _ h1)
    | none =>
      rw [h] at hl
      exact Nat.le_trans (Nat.le_add_right _ _) (ih _ _ hl)

lemma parseGo_chain (extract : List Char → Option String)
    (raws : List (List Char)) (seek : Nat) :
    (parseGo extract raws seek).Chain' (fun a b => a.seek + a.size ≤ b.seek) := by
  induction raws generalizing seek with
  | nil => simp [parseGo]
  | cons raw rest ih =>
    simp only [parseGo]
    cases h : extract raw with
    | some v =>
      refine List.chain'_cons'.mpr ⟨?_, ih _⟩
      intro b hb
      have hmem : b ∈ parseGo extract rest (seek + byteLen raw) :=
        List.mem_of_mem_head? hb
      exact parseGo_seek_le extract rest _ b hmem
    | none => exact ih _

lemma parseGo_bytes (extract : List Char → Option String)
    (raws : List (List Char)) (seek : Nat) :
    ((parseGo extract raws seek).map (fun l => l.size)).sum
      + ((raws.filter (fun raw => (extract raw).isNone)).map byteLen).sum
      = (raws.map byteLen).sum := by
  induction raws generalizing seek with
  | nil => simp [parseGo]
  | cons raw rest ih =>
    simp only [parseGo]
    cases h : extract raw with
    | some v =>
      have := ih (seek + byteLen raw)
      simp [List.filter_cons, h]
      omega
    | none =>
      have := ih (seek + byteLen raw)
      simp [List.filter_cons, h]
      omega

/-- C5: for every extractor and input, the parsed lines satisfy the byte
accounting invariants: adjacent kept lines never overlap
(`seek + size ≤` next `seek`), and the kept bytes plus the skipped bytes
equal the total bytes read, which equal the input's byte length. -/
theorem c5_byte_accounting (extract : List Char → Option String) (input : List Char) :
    ((parse extract input).lines).Chain' (fun a b => a.seek + a.size ≤ b.seek) ∧
      keptBytes extract input + skippedBytes extract input = byteLen input := by
  constructor
  · exact parseGo_chain extract (splitLines input) 0
  · have h := parseGo_bytes extract (splitLines input) 0
    have htot : ((splitLines input).map byteLen).sum = byteLen input := by
      rw [← byteLen_flatten, splitLines_flatten]
    simpa [keptBytes, skippedBytes, parse, htot] using h

/-! ### The non-ASCII filter regex (C6)

`TextInput::extract_line` (src/inputs/input.rs lines 96-111) keeps a line
iff one of the configured regexes matches it, storing the full raw line.
The single regex of C6 is `^\s*.*[^\x00-\x7f].*`, whose matching on a
haystack (anchored at position 0; `.` does not match a newline; `\s`
matches whitespace including newlines) is decided below: after a greedy
whitespace run, the line must reach a character above U+007F without
crossing a newline.  Taking the maximal whitespace run loses no matches
because every further decomposition point it covers is also reachable
from it. -/

def reAfterWs : List Char → Bool
  | [] => false
  | c :: rest =>
    if 127 < c.toNat then true
    else if c = '\n' then false
    else reAfterWs rest

def nonAsciiFilter : List Char → Bool
  | [] => false
  | c :: rest =>
    if 127 < c.toNat then true
    else if c.isWhitespace then nonAsciiFilter rest
    else reAfterWs (c :: rest)

/-- `TextInput::extract_line` with the single C6 filter regex: keep the
full raw line (`line.to_string()`) iff the regex matches. -/
def c6ExtractLine (raw : List Char) : Option String :=
  if nonAsciiFilter raw then some (String.mk raw) else none

/-- The C6 input bytes `\n100\nBGM\n你好\n`. -/
def c6Input : List Char := "\n100\nBGM\n你好\n".data

/-- C6 counterexample: the claim says the single extracted line has
content `你好`, but the extractor stores the full raw line including its
trailing newline, so the content is `你好\n`. -/
theorem c6_counterexample :
    ¬ ((parse c6ExtractLine c6Input).lines.map (fun l => l.content) = ["你好"]) := by
  decide

/-- C6 amended: extracting `\n100\nBGM\n你好\n` with the filter regex
`^\s*.*[^\x00-\x7f].*` produces exactly one `TextureLine`; its content is
the full raw line `你好\n` (trailing newline included), its seek is 9
(the byte offset of `你`), and its size is 7. -/
theorem c6_nonascii_extract :
    (parse c6ExtractLine c6Input).lines = [⟨9, 7, "你好\n", false, []⟩] := by
  decide

/-! ## Token-bounded batchizer (src/translator/chatgpt.rs lines 20-48)

`tok` abstracts the tiktoken `encode_with_special_tokens(..).len()`
count.  The loop state is the 1-based line number inside the batch, the
cumulative token count, the first character of the previous line, and the
accumulated prompt body `str_content`. -/

def batchizeGo (tok : String → Nat) (maxTokens : Nat) :
    List String → Nat → Nat → Option Char → String → String × Nat
  | [], _, _, _, sc => (sc, 0)
  | content :: rest, num, acc, pfx, sc =>
    let acc := acc + tok content
    let pa := content.data.head?
    if ¬ pa = pfx ∧ maxTokens < acc ∧ ¬ sc = "" then (sc, 0)
    else
      let pfx := if pa = pfx then pfx else pa
      let sc := sc ++ "(" ++ toString num ++ ") " ++ content ++ "\n"
      let r := batchizeGo tok maxTokens rest (num + 1) acc pfx sc
      (r.1, r.2 + 1)

/-- `TokenizedBatchizer::batchize`: returns the user-message body and the
number of consecutive lines consumed starting at `start`. -/
def batchize (tok : String → Nat) (maxTokens : Nat) (t : Textures) (start : Nat) :
    String × Nat :=
  batchizeGo tok maxTokens ((t.lines.drop start).map (fun l => l.content)) 1 0 none ""

/-- Restatement of the claim's words for C3: the batch ends exactly when
the cumulative token count exceeds `maxTokens` AND the first character of
the next line differs from the first character of the previous line
(never before at least one line was taken). -/
def c3SpecGo (tok : String → Nat) (maxTokens : Nat) :
    List String → String → Nat → Nat
  | [], _, _ => 0
  | content :: rest, prev, acc =>
    if ¬ content.data.head? = prev.data.head? ∧ maxTokens < acc + tok content then 0
    else 1 + c3SpecGo tok maxTokens rest content (acc + tok content)

def c3Spec (tok : String → Nat) (maxTokens : Nat) : List String → Nat
  | [] => 0
  | content :: rest => 1 + c3SpecGo tok maxTokens rest content (tok content)

lemma String.append_ne_empty_right (s t : String) (h : t.data ≠ []) :
    ¬ s ++ t = "" := by
  intro he
  have : (s ++ t).data = [] := by rw [he]
  rw [String.data_append] at this
  exact h (List.append_eq_nil.mp this).2

lemma batchizeGo_eq_spec (tok : String → Nat) (mt : Nat) (rest : List String) :
    ∀ (prev sc : String) (num acc : Nat), ¬ sc = "" →
      (batchizeGo tok mt rest num acc prev.data.head? sc).2 = c3SpecGo tok mt rest prev acc := by
  induction rest with
  | nil => intro prev sc num acc hsc; simp [batchizeGo, c3SpecGo]
  | cons content rest ih =>
    intro prev sc num acc hsc
    by_cases hbrk : ¬ content.data.head? = prev.data.head? ∧ mt < acc + tok content
    · simp only [batchizeGo, c3SpecGo, if_pos (And.intro hbrk.1 (And.intro hbrk.2 hsc)),
        if_pos hbrk]
    · have hne :
          ¬ (¬ content.data.head? = prev.data.head? ∧ mt < acc + tok content ∧ ¬ sc = "") := by
        intro ⟨h1, h2, _⟩; exact hbrk ⟨h1, h2⟩
      simp only [batchizeGo, c3SpecGo, if_neg hne, if_neg hbrk]
      have hpfx :
          (if content.data.head? = prev.data.head? then prev.data.head?
            else content.data.head?) = content.data.head? := by
        by_cases h : content.data.head? = prev.data.head? <;> simp [h]
      rw [hpfx]
      have hsc' : ¬ sc ++ "(" ++ toString num ++ ") " ++ content ++ "\n" = "" :=
        String.append_ne_empty_right _ _ (by decide)
      rw [ih content _ (num + 1) (acc + tok content) hsc']
      omega

lemma batchize_eq_c3Spec (tok : String → Nat) (mt : Nat) (ls : List String) :
    (batchizeGo tok mt ls 1 0 none "").2 = c3Spec tok mt ls := by
  cases ls with
  | nil => simp [batchizeGo, c3Spec]
  | cons content rest =>
    simp only [batchizeGo, c3Spec]
    rw [if_neg (by simp)]
    have hpfx :
        (if content.data.head? = none then none else content.data.head?)
          = content.data.head? := by
      by_cases h : content.data.head? = none <;> simp [h]
    rw [hpfx]
    have hsc : ¬ "" ++ "(" ++ toString 1 ++ ") " ++ content ++ "\n" = "" :=
      String.append_ne_empty_right _ _ (by decide)
    rw [Nat.zero_add, batchizeGo_eq_spec tok mt rest content _ 2 (tok content) hsc]
    omega

/-- Eight lines sharing the first character `请`. -/
def c3LinesSame : Textures :=
  ⟨(List.replicate 8 "请原谅我").map (fun s => TextureLine.mk 0 0 s false []), 0, ""⟩

/-- Same, but line 5 (1-based) starts with a space instead. -/
def c3LinesSplit : Textures :=
  ⟨(["请原谅我", "请原谅我", "请原谅我", "请原谅我",
     " 请原谅我", "请原谅我", "请原谅我", "请原谅我"]).map
      (fun s => TextureLine.mk 0 0 s false []), 0, ""⟩

/-- C3: the token-bounded batcher ends a batch exactly when the cumulative
token count exceeds `max_tokens` and the first character changes (the
claim's rule, `c3Spec`); with `max_tokens = 1` it consumes all 8 lines
when every line starts with `请`, and only 4 when line 5 starts with a
different character. -/
theorem c3_batchizer_grouping :
    (∀ (tok : String → Nat) (mt : Nat) (t : Textures) (start : Nat),
        (batchize tok mt t start).2
          = c3Spec tok mt ((t.lines.drop start).map (fun l => l.content))) ∧
      (batchize (fun s => s.length) 1 c3LinesSame 0).2 = 8 ∧
      (batchize (fun s => s.length) 1 c3LinesSplit 0).2 = 4 := by
  refine ⟨fun tok mt t start => batchize_eq_c3Spec tok mt _, ?_, ?_⟩ <;> decide

/-! ## Batch queue construction (src/translator/chatgpt.rs lines 102-177) -/

/-- A queued batch: the user-message body and the inclusive line range it
covers. -/
abbrev BatchPackage := String × (Nat × Nat)

/-- `line_count_batchized`: split every specified range into fixed-size
sub-batches of at most 4 lines, then reverse the queue for popping.
Indices are within `t.lines` wherever the function is applied (the Rust
code indexes unconditionally and would panic otherwise). -/
def line_count_batchized (t : Textures) (specify_range : Option (List (Nat × Nat))) :
    List BatchPackage :=
  match specify_range with
  | none => []
  | some ranges =>
    (ranges.foldl
      (fun acc se =>
        ((List.range' se.1 (se.2 + 1 - se.1)).foldl
          (fun st i =>
            let size := st.1 + 1
            let line := t.lines.getD i default
            let sc := st.2.1 ++ toString (size + 1) ++ ". " ++ line.content ++ "\n"
            if size = 4 ∨ i = se.2 then (0, "", st.2.2 ++ [(sc, (i + 1 - size, i))])
            else (size, sc, st.2.2))
          (0, "", acc)).2.2)
      []).reverse

/-- `TranslateChatGPT::create_batch_queue` with a reprocessing range list
(`by_line_count` is hardcoded `false` in the source, with a todo comment,
so the `line_count_batchized` path is never taken): the loop batchizes
from each range's start with the configured batchizer, pushes
`(i, i + size - 1)`, and moves to the next range's start while it stays
below `lines.len()`. -/
def cbqRanges (batchizer : Textures → Nat → String × Nat) (t : Textures) :
    List (Nat × Nat) → List BatchPackage
  | [] => []
  | se :: rest =>
    if se.1 < t.lines.length then
      let r := batchizer t se.1
      (r.1, (se.1, se.1 + r.2 - 1)) :: cbqRanges batchizer t rest
    else []

/-- `create_batch_queue` without a range list: walk from `curr_index`,
advancing by each batch's size.  The fuel bounds the number of loop
iterations; with any batchizer that consumes at least one line per call
(as the tokenized batchizer does below the line count), `lines.length + 1`
iterations suffice, matching the source loop. -/
def cbqWalk (batchizer : Textures → Nat → String × Nat) (t : Textures) :
    Nat → Nat → List BatchPackage
  | 0, _ => []
  | fuel + 1, i =>
    if i < t.lines.length then
      let r := batchizer t i
      (r.1, (i, i + r.2 - 1)) :: cbqWalk batchizer t fuel (i + r.2)
    else []

def create_batch_queue (batchizer : Textures → Nat → String × Nat)
    (specify_range : Option (List (Nat × Nat))) (t : Textures) : List BatchPackage :=
  (match specify_range with
   | some ranges => cbqRanges batchizer t ranges
   | none => cbqWalk batchizer t (t.lines.length + 1) t.curr_index).reverse

/-- 25 identical one-character lines, as in the repository's own
`test_batchizer_by_line_count_by_specify_range` setup. -/
def c1Textures : Textures :=
  ⟨List.replicate 25 (TextureLine.mk 0 0 "A" false []), 0, ""⟩

/-- C1: with `specify_range = [(10, 14)]` the queue the orchestrator
actually builds (drain order, i.e. popped from the tail) is the single
token-bounded batch `(10, 24)` — `create_batch_queue` never calls
`line_count_batchized` because `by_line_count` is hardcoded `false` — and
not the two fixed-size sub-batches `(10, 13), (14, 14)` the claim
describes, which `line_count_batchized` itself would produce. -/
theorem c1_specify_range_queue :
    ((create_batch_queue (batchize (fun s => s.length) 1000000)
        (some [(10, 14)]) c1Textures).reverse.map (fun b => b.2)) = [(10, 24)] ∧
      ¬ ((create_batch_queue (batchize (fun s => s.length) 1000000)
        (some [(10, 14)]) c1Textures).reverse.map (fun b => b.2)) = [(10, 13), (14, 14)] ∧
      ((line_count_batchized c1Textures (some [(10, 14)])).reverse.map (fun b => b.2))
        = [(10, 13), (14, 14)] := by
  refine ⟨?_, ?_, ?_⟩ <;> decide

/-! ## Round-robin client factory (src/translator/chatgpt.rs lines 179-188) -/

/-- `ChatGPTAPI` credential record. -/
structure ChatGPTAPI where
  api_key : String
  api_url : String
  org_id : Option String
deriving DecidableEq

instance : Inhabited ChatGPTAPI := ⟨⟨"", "", none⟩⟩

/-- The fields of `TranslateChatGPT` that `create_client` reads and
writes: the credential pool and the running creation counter. -/
structure TranslateChatGPT where
  api_pool : List ChatGPTAPI
  client_count : Nat
deriving DecidableEq

/-- `TranslateChatGPT::create_client`: pick
`api_pool[client_count % api_pool.len()]` and increment the counter.  The
constructor rejects an empty pool, so the index is always in range; the
embedding totalises it with `getD`. -/
def create_client (s : TranslateChatGPT) : ChatGPTAPI × TranslateChatGPT :=
  (s.api_pool.getD (s.client_count % s.api_pool.length) default,
    { s with client_count := s.client_count + 1 })

/-- The clients produced by `K` successive `create_client` calls. -/
def runClients (s : TranslateChatGPT) : Nat → List ChatGPTAPI
  | 0 => []
  | n + 1 =>
    let r := create_client s
    r.1 :: runClients r.2 n

lemma runClients_eq (pool : List ChatGPTAPI) (c : Nat) :
    ∀ n, runClients ⟨pool, c⟩ n
      = (List.range n).map (fun k => pool.getD ((c + k) % pool.length) default) := by
  intro n
  induction n generalizing c with
  | zero => simp [runClients]
  | succ n ih =>
    rw [List.range_succ_eq_map]
    simp only [runClients, create_client, List.map_cons, List.map_map]
    refine congrArg₂ (· :: ·) (by simp) ?_
    rw [ih (c + 1)]
    refine List.map_congr_left fun k _ => ?_
    have h : c + 1 + k = c + (k + 1) := by omega
    simp [Function.comp, h]

lemma count_mod_range (P i : Nat) (hP : 0 < P) (hi : i < P) :
    ∀ K, ((List.range K).countP (fun k => decide (k % P = i))) = (K - i + (P - 1)) / P := by
  intro K
  induction K with
  | zero =>
    have h0 : (P - 1) / P = 0 := Nat.div_eq_of_lt (by omega)
    simp [h0]
  | succ K ih =>
    rw [List.range_succ, List.countP_append, ih]
    by_cases hKi : K < i
    · have h1 : (K + 1 - i + (P - 1)) / P = 0 := Nat.div_eq_of_lt (by omega)
      have h2 : (K - i + (P - 1)) / P = 0 := Nat.div_eq_of_lt (by omega)
      have h3 : ¬ K % P = i := by
        have : K % P ≤ K := Nat.mod_le _ _
        omega
      simp [h1, h2, h3]
    · push_neg at hKi
      obtain ⟨q, r, hr, hKqr⟩ : ∃ q r, r < P ∧ K = i + (P * q + r) := by
        refine ⟨(K - i) / P, (K - i) % P, Nat.mod_lt _ hP, ?_⟩
        have := Nat.div_add_mod (K - i) P
        omega
      by_cases hdvd : r = 0
      · subst hdvd
        have hKP : K % P = i := by
          have h2 : K = i + q * P := by rw [Nat.mul_comm]; omega
          rw [h2, Nat.add_mul_mod_self_right]
          exact Nat.mod_eq_of_lt hi
        have hL : (K + 1 - i + (P - 1)) / P = q + 1 := by
          have h2 : K + 1 - i + (P - 1) = P * q + P := by omega
          rw [h2, Nat.mul_add_div hP, Nat.div_self hP]
        have hR : (K - i + (P - 1)) / P = q := by
          have h2 : K - i + (P - 1) = P * q + (P - 1) := by omega
          rw [h2, Nat.mul_add_div hP, Nat.div_eq_of_lt (by omega)]
          omega
        simp [hKP, hL, hR]
      · have hKP : ¬ K % P = i := by
          have h2 : K = (i + r) + q * P := by rw [Nat.mul_comm]; omega
          rw [h2, Nat.add_mul_mod_self_right]
          by_cases hir : i + r < P
          · rw [Nat.mod_eq_of_lt hir]; omega
          · rw [Nat.mod_eq_sub_mod (by omega), Nat.mod_eq_of_lt (by omega)]
            omega
        have hL : (K + 1 - i + (P - 1)) / P = q + 1 := by
          have h2 : K + 1 - i + (P - 1) = P * q + (r + P) := by omega
          rw [h2, Nat.mul_add_div hP, Nat.add_div_right _ hP,
            Nat.div_eq_of_lt hr]
        have hR : (K - i + (P - 1)) / P = q + 1 := by
          have h2 : K - i + (P - 1) = P * q + ((r - 1) + P) := by omega
          rw [h2, Nat.mul_add_div hP, Nat.add_div_right _ hP,
            Nat.div_eq_of_lt (by omega)]
        simp [hKP, hL, hR]

/-- C9: starting from a fresh counter, the `k`-th `create_client` call
(0-based) returns the credential at index `k mod P`, and among the first
`K` calls credential `i` is chosen `⌈(K − i) / P⌉ = (K - i + (P - 1)) / P`
times. -/
theorem c9_round_robin (pool : List ChatGPTAPI) (P K i : Nat)
    (hlen : pool.length = P) (hP : 0 < P) (hi : i < P) :
    runClients ⟨pool, 0⟩ K
        = (List.range K).map (fun k => pool.getD (k % P) default) ∧
      ((List.range K).countP (fun k => decide (k % P = i)))
        = (K - i + (P - 1)) / P := by
  constructor
  · rw [runClients_eq pool 0 K, hlen]
    simp
  · exact count_mod_range P i hP hi K

/-- Witness for C9: pool of three credentials, five calls, credential 1
is used twice. -/
theorem c9_round_robin_witness :
    (let pool : List ChatGPTAPI :=
      [⟨"test1", "test1.html", none⟩, ⟨"test2", "test2.html", none⟩,
       ⟨"test3", "test1.html", none⟩]
     runClients ⟨pool, 0⟩ 5
         = (List.range 5).map (fun k => pool.getD (k % 3) default) ∧
       ((List.range 5).countP (fun k => decide (k % 3 = 1))) = (5 - 1 + (3 - 1)) / 3) :=
  c9_round_robin
    [⟨"test1", "test1.html", none⟩, ⟨"test2", "test2.html", none⟩,
     ⟨"test3", "test1.html", none⟩] 3 5 1 (by decide) (by decide) (by decide)

/-! ## Map-formatter escaping (src/output/mtool.rs lines 35-63) -/

/-- The `match` arm of `escape_json_string`: the characters pushed for
one source character. -/
def escSeq (c : Char) : List Char :=
  if c = '"' then ['\\', '"']
  else if c = '\\' then ['\\', '\\']
  else if c = '\x08' then ['\\', 'b']
  else if c = '\x0c' then ['\\', 'f']
  else if c = '\n' then ['\\', 'n']
  else if c = '\r' then ['\\', 'r']
  else if c = '\t' then ['\\', 't']
  else [c]

/-- Loop body of `escape_json_string`: `lineLen` counts source characters
since the last line break; the source increments it for every character
and zeroes it on a translated `\n` or `\r` (equivalently, it becomes 0 for
those characters and `lineLen + 1` otherwise); once the count reaches the
width a literal `\n` is inserted and the count is zeroed. -/
def escapeGo (width : Nat) : List Char → Nat → List Char
  | [], _ => []
  | c :: rest, lineLen =>
    let lineLen := if c = '\n' ∨ c = '\r' then 0 else lineLen + 1
    if width ≤ lineLen then escSeq c ++ ['\\', 'n'] ++ escapeGo width rest 0
    else escSeq c ++ escapeGo width rest lineLen

/-- `escape_json_string`: the wrap width defaults to 3000. -/
def escape_json_string (s : String) (line_width : Option Nat) : String :=
  ⟨escapeGo (line_width.getD 3000) s.data 0⟩

/-- The characters the escape routine maps to two-character sequences. -/
def escapedChars : List Char := ['"', '\\', '\x08', '\x0c', '\n', '\r', '\t']

/-- C8 counterexample: `escape_json_string("hello\world", line_width = 5)`
is not a 15-character string (it has 16 characters). -/
theorem c8_counterexample :
    ¬ (escape_json_string "hello\\world" (some 5)).length = 15 := by
  decide

/-- C8 amended: each of `" \ \b \f \n \r \t` becomes its two-character
escape sequence, any other single character passes through unchanged, and
`escape_json_string("hello\world", line_width = 5)` is the 16-character
string `hello\n\\worl\nd`, with a literal `\n` inserted after every 5
consecutive characters since the last (inserted or translated) break. -/
theorem c8_escape_wrap :
    escape_json_string "hello\\world" (some 5) = "hello\\n\\\\worl\\nd" ∧
      (escape_json_string "hello\\world" (some 5)).length = 16 ∧
      escape_json_string "\"" none = "\\\"" ∧
      escape_json_string "\\" none = "\\\\" ∧
      escape_json_string "\x08" none = "\\b" ∧
      escape_json_string "\x0c" none = "\\f" ∧
      escape_json_string "\n" none = "\\n" ∧
      escape_json_string "\r" none = "\\r" ∧
      escape_json_string "\t" none = "\\t" ∧
      (∀ c : Char, ¬ c ∈ escapedChars →
        escape_json_string ⟨[c]⟩ none = ⟨[c]⟩) := by
  refine ⟨by decide, by decide, by decide, by decide, by decide, by decide,
    by decide, by decide, by decide, fun c hc => ?_⟩
  have h1 : ¬ c = '"' := fun h => hc (by rw [h]; decide)
  have h2 : ¬ c = '\\' := fun h => hc (by rw [h]; decide)
  have h3 : ¬ c = '\x08' := fun h => hc (by rw [h]; decide)
  have h4 : ¬ c = '\x0c' := fun h => hc (by rw [h]; decide)
  have h5 : ¬ c = '\n' := fun h => hc (by rw [h]; decide)
  have h6 : ¬ c = '\r' := fun h => hc (by rw [h]; decide)
  have h7 : ¬ c = '\t' := fun h => hc (by rw [h]; decide)
  show String.mk (escapeGo 3000 [c] 0) = String.mk [c]
  rw [escapeGo]
  simp only [escSeq, h1, h2, h3, h4, h5, h6, h7, if_false, or_self,
    reduceIte]
  rfl

/-- Witness for C8 at the concrete plain character `a`. -/
theorem c8_escape_wrap_witness :
    escape_json_string "a" none = "a" :=
  c8_escape_wrap.2.2.2.2.2.2.2.2.2 'a' (by decide)

/-! ## KiriKiri output-side extract_lines (src/output/kiri.rs lines 22-29)

The two configured regexes are abstracted by their observable operations:
`replaceAll haystack repl` is `Regex::replace_all` with replacement
`repl`, and `captures1 haystack` is the ordered list of group-1 captures
of `captures_iter`. -/

structure RegexOps where
  replaceAll : String → String → String
  captures1 : String → List String

/-- Rust's `str::replace("\"", "")`: with a one-character pattern and an
empty replacement this removes every double quote. -/
def removeQuotes (s : String) : String := ⟨s.data.filter (fun c => ¬ c = '"')⟩

/-- `KiriKiriOutput::extract_lines`: apply the replace rule with the
literal two-character replacement `\n`, then collect group 1 of each
capture-rule match with all double quotes removed. -/
def kiri_extract_lines (replace_rule capture_rule : RegexOps) (content : String) :
    List String :=
  let content := replace_rule.replaceAll content "\\n"
  (capture_rule.captures1 content).map removeQuotes

/-- C10: whatever the two regexes and the response are, every string
returned by `extract_lines` is quote-free, because group 1 of each match
passes through `removeQuotes`. -/
theorem c10_no_quotes (replace_rule capture_rule : RegexOps) (content : String)
    (s : String) (hs : s ∈ kiri_extract_lines replace_rule capture_rule content) :
    ¬ '"' ∈ s.data := by
  intro hq
  simp only [kiri_extract_lines, List.mem_map] at hs
  obtain ⟨cap, _, hcap⟩ := hs
  rw [← hcap] at hq
  simp [removeQuotes, List.mem_filter] at hq

/-- Witness for C10: a concrete capture containing a quote comes back
quote-free. -/
theorem c10_no_quotes_witness :
    ¬ '"' ∈ (String.mk ("a\"b".data.filter (fun c => ¬ c = '"'))).data :=
  c10_no_quotes ⟨fun s _ => s, fun _ => []⟩ ⟨fun s _ => s, fun _ => ["a\"b"]⟩
    "x" ⟨"a\"b".data.filter (fun c => ¬ c = '"')⟩ (by decide)

/-! ## Diagnostic sidecar files (src/output/output.rs lines 250-263 and
src/lib.rs lines 94-108) -/

/-- A file-system effect of the rewriter's final step. -/
inductive SidecarAction where
  | deleteFile (path : String)
  | writeFile (path : String) (ranges : List (Nat × Nat))
deriving DecidableEq

/-- The rewriter's final step: an empty failed-range list deletes
`<name>.dignostic_failed.json`; a non-empty one serializes the list to
`<name>.dignostic_failed_range.json` (both spelled `dignostic` in the
source). -/
def diagnosticSidecarAction (name : String) (failed : List (Nat × Nat)) :
    SidecarAction :=
  if failed = [] then .deleteFile (name ++ ".dignostic_failed.json")
  else .writeFile (name ++ ".dignostic_failed_range.json") failed

/-- The sidecar path `start` reads into `specify_range` on the next run. -/
def specifyRangePath (file : String) : String :=
  file ++ ".dignostic_failed_range.json"

/-- C7 counterexample: the claim names the sidecar
`<name>.diagnostic_failed_range.json`, but for `name = "a"` and a
non-empty list the rewriter writes `a.dignostic_failed_range.json`
(spelled `dignostic`), not `a.diagnostic_failed_range.json`. -/
theorem c7_counterexample :
    ¬ diagnosticSidecarAction "a" [(1, 2)]
        = .writeFile "a.diagnostic_failed_range.json" [(1, 2)] := by
  decide

/-- C7 amended: with a non-empty failed-range list the rewriter writes the
list to `<name>.dignostic_failed_range.json`; with an empty list it
deletes `<name>.dignostic_failed.json`; and the orchestrator's next run
reads `<file>.dignostic_failed_range.json` — the same path the rewriter
writes — into `specify_range`. -/
theorem c7_sidecar_names (name : String) (failed : List (Nat × Nat))
    (hne : ¬ failed = []) :
    diagnosticSidecarAction name failed
        = .writeFile (name ++ ".dignostic_failed_range.json") failed ∧
      diagnosticSidecarAction name []
        = .deleteFile (name ++ ".dignostic_failed.json") ∧
      specifyRangePath name = name ++ ".dignostic_failed_range.json" := by
  refine ⟨?_, rfl, rfl⟩
  simp [diagnosticSidecarAction, hne]

/-- Witness for C7 at a concrete name and list. -/
theorem c7_sidecar_names_witness :
    diagnosticSidecarAction "a" [(1, 2)]
        = .writeFile ("a" ++ ".dignostic_failed_range.json") [(1, 2)] ∧
      diagnosticSidecarAction "a" []
        = .deleteFile ("a" ++ ".dignostic_failed.json") ∧
      specifyRangePath "a" = "a" ++ ".dignostic_failed_range.json" :=
  c7_sidecar_names "a" [(1, 2)] (by decide)

/-! ## Rewriter (src/output/output.rs lines 141-264)

The rewrite loop is embedded over an abstract byte type `α` (instantiated
with `Nat` bytes in the witness): `orig` is the original file,
`extract`/`fmt` abstract the formatter's `extract_lines`/`format_line`
(`fmt` already composed with `as_bytes`).  The reader/writer pair with its
8 KiB buffer net-copies `orig[pre_read_at, line.seek)` to the output;
`fuel` bounds the loop (the index advances at every iteration for
well-formed `Textures`, so `lines.length + 1` iterations always finish).
The source would block reading past end of file or panic on out-of-range
indices; theorems hypothesise the in-bounds, sorted layout the extractor
guarantees. -/

/-- `orig[a, b)`. -/
def sliceList (l : List α) (a b : Nat) : List α := (l.drop a).take (b - a)

/-- Result of the rewrite walk: bytes written, the
`dignostic_failed_range` list, and the final `pre_read_at`. -/
structure RwResult (α : Type) where
  out : List α
  diag : List (Nat × Nat)
  preReadAt : Nat
deriving DecidableEq

/-- `line.translated.iter().find(|t| t.translator == translator)`. -/
def findTranslated (line : TextureLine) (tr : Translator) : Option TranslatedLine :=
  line.translated.find? (fun t => decide (t.translator = tr))

def rewriteGo (orig : List α) (extract : String → List String)
    (fmt : String → String → List α) (tr : Translator) (lines : List TextureLine) :
    Nat → Nat → Nat → List α → List (Nat × Nat) → Option (RwResult α)
  | 0, _, _, _, _ => none
  | fuel + 1, i, pre, out, diag =>
    if i < lines.length then
      let line := lines.getD i default
      match findTranslated line tr with
      | none => rewriteGo orig extract fmt tr lines fuel (i + 1) pre out diag
      | some t =>
        let copied := if pre < line.seek then sliceList orig pre line.seek else []
        let pre1 := if pre < line.seek then line.seek else pre
        let tlines := extract t.content
        if ¬ tlines.length = t.batch_range.2 - t.batch_range.1 + 1 then
          rewriteGo orig extract fmt tr lines fuel (t.batch_range.2 + 1) pre1
            (out ++ copied) (diag ++ [(t.batch_range.1, t.batch_range.2)])
        else
          let flines := (tlines.enum.map
            (fun p => fmt (lines.getD (i + p.1) default).content p.2)).flatten
          let last := if tlines.length = 0 then 0 else i + tlines.length - 1
          let pre2 := (lines.getD last default).seek + (lines.getD last default).size
          rewriteGo orig extract fmt tr lines fuel (t.batch_range.2 + 1) pre2
            (out ++ copied ++ flines) diag
    else
      some ⟨out ++ orig.drop pre, diag, pre⟩

/-- `Output::output` for `RewriteOutput` formatters: walk the lines from
index 0 with both cursors at 0. -/
def rewriteOutput (orig : List α) (extract : String → List String)
    (fmt : String → String → List α) (tr : Translator) (t : Textures) :
    Option (RwResult α) :=
  rewriteGo orig extract fmt tr t.lines (t.lines.length + 1) 0 0 [] []

lemma sliceList_self (l : List α) (a : Nat) : sliceList l a a = [] := by
  simp [sliceList]

lemma sliceList_to_length (l : List α) (a : Nat) :
    sliceList l a l.length = l.drop a := by
  have h : (l.drop a).length = l.length - a := List.length_drop ..
  rw [sliceList, ← h, List.take_length]

lemma sliceList_split (l : List α) (a b c : Nat) (hab : a ≤ b) (hbc : b ≤ c) :
    sliceList l a c = sliceList l a b ++ sliceList l b c := by
  have h1 : c - a = (b - a) + (c - b) := by omega
  rw [sliceList, h1, List.take_add, sliceList, sliceList, List.drop_drop]
  have h2 : a + (b - a) = b := by omega
  rw [h2]

section Rewrite

variable {α : Type} (orig : List α) (extract : String → List String)
variable (fmt : String → String → List α) (tr : Translator) (lines : List TextureLine)

/-- Frame property: the walk only ever appends to `out` and `diag`. -/
lemma rewriteGo_frame :
    ∀ (fuel i pre : Nat) (out : List α) (diag : List (Nat × Nat)),
      rewriteGo orig extract fmt tr lines fuel i pre out diag
        = (rewriteGo orig extract fmt tr lines fuel i pre [] []).map
            (fun r => ⟨out ++ r.out, diag ++ r.diag, r.preReadAt⟩) := by
  intro fuel
  induction fuel with
  | zero => intro i pre out diag; simp [rewriteGo]
  | succ fuel ih =>
    intro i pre out diag
    by_cases hlt : i < lines.length
    · cases hf : findTranslated (lines.getD i default) tr with
      | none =>
        simp only [rewriteGo, if_pos hlt, hf]
        exact ih (i + 1) pre out diag
      | some t =>
        simp only [rewriteGo, if_pos hlt, hf]
        by_cases hmis :
            ¬ (extract t.content).length = t.batch_range.2 - t.batch_range.1 + 1
        · simp only [if_pos hmis]
          rw [ih _ _ (out ++ _) (diag ++ _), ih _ _ ([] ++ _) ([] ++ _)]
          cases hres : rewriteGo orig extract fmt tr lines fuel (t.batch_range.2 + 1)
              (if pre < (lines.getD i default).seek then (lines.getD i default).seek
                else pre) [] [] with
          | none => simp [hres]
          | some r => simp [hres]
        · simp only [if_neg hmis]
          rw [ih _ _ (out ++ _ ++ _) diag, ih _ _ ([] ++ _ ++ _) []]
          cases hres : rewriteGo orig extract fmt tr lines fuel (t.batch_range.2 + 1)
              ((lines.getD (if (extract t.content).length = 0 then 0
                  else i + (extract t.content).length - 1) default).seek
                + (lines.getD (if (extract t.content).length = 0 then 0
                  else i + (extract t.content).length - 1) default).size) [] [] with
          | none => simp [hres]
          | some r => simp [hres]
    · simp [rewriteGo, hlt]

/-- With batch ends inside the line list, `lines.length + 1 - i` loop
iterations always terminate the walk. -/
lemma rewriteGo_total
    (hranges : ∀ j, j < lines.length → ∀ t',
      findTranslated (lines.getD j default) tr = some t' →
        t'.batch_range.1 = j ∧ j ≤ t'.batch_range.2 ∧ t'.batch_range.2 < lines.length) :
    ∀ (fuel i pre : Nat) (out : List α) (diag : List (Nat × Nat)),
      i ≤ lines.length → lines.length + 1 - i ≤ fuel →
      (rewriteGo orig extract fmt tr lines fuel i pre out diag).isSome := by
  intro fuel
  induction fuel with
  | zero => intro i pre out diag hi hfuel; omega
  | succ fuel ih =>
    intro i pre out diag hi hfuel
    by_cases hlt : i < lines.length
    · cases hf : findTranslated (lines.getD i default) tr with
      | none =>
        simp only [rewriteGo, if_pos hlt, hf]
        exact ih (i + 1) pre out diag (by omega) (by omega)
      | some t =>
        obtain ⟨hs, hse, he⟩ := hranges i hlt t hf
        simp only [rewriteGo, if_pos hlt, hf]
        by_cases hmis :
            ¬ (extract t.content).length = t.batch_range.2 - t.batch_range.1 + 1
        · simp only [if_pos hmis]
          exact ih _ _ _ _ (by omega) (by omega)
        · simp only [if_neg hmis]
          exact ih _ _ _ _ (by omega) (by omega)
    · simp [rewriteGo, hlt]

/-- Output shape: starting with empty accumulators at cursor `pre`, the
written bytes begin with a verbatim copy `orig[pre, q)` that reaches at
least to `B`, provided `B` is below every still-pending translated line's
seek and inside the file. -/
lemma rewriteGo_out_slice (B : Nat) (hBlen : B ≤ orig.length) :
    ∀ (fuel i pre : Nat),
      (∀ j, i ≤ j → j < lines.length →
        (findTranslated (lines.getD j default) tr).isSome →
          B ≤ (lines.getD j default).seek) →
      ∀ r, rewriteGo orig extract fmt tr lines fuel i pre [] [] = some r →
        ∃ q rest, r.out = sliceList orig pre q ++ rest ∧ B ≤ q := by
  intro fuel
  induction fuel with
  | zero => intro i pre hB r hr; simp [rewriteGo] at hr
  | succ fuel ih =>
    intro i pre hB r hr
    by_cases hlt : i < lines.length
    · cases hf : findTranslated (lines.getD i default) tr with
      | none =>
        simp only [rewriteGo, if_pos hlt, hf] at hr
        exact ih (i + 1) pre (fun j h1 h2 h3 => hB j (by omega) h2 h3) r hr
      | some t =>
        have hBi : B ≤ (lines.getD i default).seek :=
          hB i (Nat.le_refl i) hlt (by rw [hf]; rfl)
        simp only [rewriteGo, if_pos hlt, hf] at hr
        by_cases hcopy : pre < (lines.getD i default).seek
        · -- the copy step emits `orig[pre, seek)`, which already reaches `B`
          by_cases hmis :
              ¬ (extract t.content).length = t.batch_range.2 - t.batch_range.1 + 1
          · simp only [if_pos hmis, if_pos hcopy] at hr
            rw [rewriteGo_frame] at hr
            cases hres : rewriteGo orig extract fmt tr lines fuel
                (t.batch_range.2 + 1) (lines.getD i default).seek [] [] with
            | none => rw [hres] at hr; simp at hr
            | some r' =>
              rw [hres] at hr
              simp only [Option.map_some', Option.some.injEq] at hr
              refine ⟨(lines.getD i default).seek, r'.out, ?_, hBi⟩
              rw [← hr]
              simp
          · simp only [if_neg hmis, if_pos hcopy] at hr
            rw [rewriteGo_frame] at hr
            cases hres : rewriteGo orig extract fmt tr lines fuel
                (t.batch_range.2 + 1)
                ((lines.getD (if (extract t.content).length = 0 then 0
                    else i + (extract t.content).length - 1) default).seek
                  + (lines.getD (if (extract t.content).length = 0 then 0
                    else i + (extract t.content).length - 1) default).size) [] [] with
            | none => rw [hres] at hr; simp at hr
            | some r' =>
              rw [hres] at hr
              simp only [Option.map_some', Option.some.injEq] at hr
              refine ⟨(lines.getD i default).seek,
                ((extract t.content).enum.map
                    (fun p => fmt (lines.getD (i + p.1) default).content p.2)).flatten
                  ++ r'.out, ?_, hBi⟩
              rw [← hr]
              simp [List.append_assoc]
        · -- no copy: `B ≤ seek ≤ pre`, the empty slice `orig[pre, pre)` works
          have hBpre : B ≤ pre := by omega
          refine ⟨pre, r.out, ?_, hBpre⟩
          rw [sliceList_self]
          simp
    · simp only [rewriteGo, if_neg hlt, Option.some.injEq] at hr
      refine ⟨orig.length, [], ?_, hBlen⟩
      rw [← hr]
      rw [sliceList_to_length]
      simp

/-- Seeks are monotone along a sorted line list. -/
lemma seek_le_seek
    (hsorted : ∀ j, j + 1 < lines.length →
      (lines.getD j default).seek + (lines.getD j default).size
        ≤ (lines.getD (j + 1) default).seek)
    (a b : Nat) (hab : a ≤ b) (hb : b < lines.length) :
    (lines.getD a default).seek ≤ (lines.getD b default).seek := by
  have key : ∀ d a, a + d < lines.length →
      (lines.getD a default).seek ≤ (lines.getD (a + d) default).seek := by
    intro d
    induction d with
    | zero => intro a _; simp
    | succ d ihd =>
      intro a h
      have h1 := ihd a (by omega)
      have h2 := hsorted (a + d) (by omega)
      have h3 : a + (d + 1) = (a + d) + 1 := by omega
      rw [h3]
      omega
  have h := key (b - a) a (by omega)
  have h2 : a + (b - a) = b := by omega
  rw [h2] at h
  exact h

/-- Reaching a mismatched batch: walking from any index at or before its
start line, with the cursor at or below that index's seek, the walk
completes, records the batch range in the diagnostic list, and the
original bytes of the whole batch appear verbatim in the output. -/
lemma rewriteGo_reach
    (hsorted : ∀ j, j + 1 < lines.length →
      (lines.getD j default).seek + (lines.getD j default).size
        ≤ (lines.getD (j + 1) default).seek)
    (hbounded : ∀ j, j < lines.length →
      (lines.getD j default).seek + (lines.getD j default).size ≤ orig.length)
    (hranges : ∀ j, j < lines.length → ∀ t',
      findTranslated (lines.getD j default) tr = some t' →
        t'.batch_range.1 = j ∧ j ≤ t'.batch_range.2 ∧ t'.batch_range.2 < lines.length)
    (hsep : ∀ j j', j < j' → j' < lines.length → ∀ tj,
      findTranslated (lines.getD j default) tr = some tj →
      (findTranslated (lines.getD j' default) tr).isSome → tj.batch_range.2 < j')
    (k e : Nat) (tk : TranslatedLine)
    (hk : k < lines.length)
    (hfind : findTranslated (lines.getD k default) tr = some tk)
    (hrange : tk.batch_range = (k, e))
    (hmis : ¬ (extract tk.content).length = e - k + 1) :
    ∀ (fuel i pre : Nat) (out : List α) (diag : List (Nat × Nat)), i ≤ k →
      pre ≤ (lines.getD i default).seek →
      lines.length + 1 - i ≤ fuel →
      ∃ r, rewriteGo orig extract fmt tr lines fuel i pre out diag = some r ∧
        (k, e) ∈ r.diag ∧
        ∃ u v, r.out = u ++ sliceList orig (lines.getD k default).seek
            ((lines.getD e default).seek + (lines.getD e default).size) ++ v := by
  obtain ⟨hk1, hke, helen⟩ := hranges k hk tk hfind
  rw [hrange] at hke helen
  intro fuel
  induction fuel with
  | zero => intro i pre out diag hik hpre hfuel; omega
  | succ fuel ih =>
    intro i pre out diag hik hpre hfuel
    have hilt : i < lines.length := by omega
    cases hf : findTranslated (lines.getD i default) tr with
    | none =>
      have hik' : ¬ i = k := by
        intro h
        rw [h, hfind] at hf
        cases hf
      have hpre' : pre ≤ (lines.getD (i + 1) default).seek := by
        have := hsorted i (by omega)
        omega
      simp only [rewriteGo, if_pos hilt, hf]
      exact ih (i + 1) pre out diag (by omega) hpre' (by omega)
    | some ti =>
      obtain ⟨hti1, htie, htielen⟩ := hranges i hilt ti hf
      by_cases hik2 : i = k
      · subst hik2
        have hti : ti = tk := by
          rw [hf] at hfind
          exact Option.some.inj hfind
        subst hti
        have hpre1 :
            (if pre < (lines.getD i default).seek then (lines.getD i default).seek
              else pre) = (lines.getD i default).seek := by
          rcases Nat.lt_or_ge pre (lines.getD i default).seek with h | h
          · rw [if_pos h]
          · rw [if_neg (by omega)]
            omega
        simp only [rewriteGo, if_pos hilt, hf, hrange]
        rw [if_pos (by simpa using hmis), hpre1]
        have htot := rewriteGo_total orig extract fmt tr lines hranges fuel
          ((i, e).2 + 1) (lines.getD i default).seek
          (out ++ if pre < (lines.getD i default).seek then
              sliceList orig pre (lines.getD i default).seek else [])
          (diag ++ [((i, e).1, (i, e).2)]) (by simp; omega) (by simp; omega)
        obtain ⟨r, hr⟩ := Option.isSome_iff_exists.mp htot
        refine ⟨r, hr, ?_⟩
        rw [rewriteGo_frame] at hr
        cases hres : rewriteGo orig extract fmt tr lines fuel ((i, e).2 + 1)
            (lines.getD i default).seek [] [] with
        | none => rw [hres] at hr; simp at hr
        | some r' =>
          rw [hres] at hr
          simp only [Option.map_some', Option.some.injEq] at hr
          have hB : ∀ j, (i, e).2 + 1 ≤ j → j < lines.length →
              (findTranslated (lines.getD j default) tr).isSome →
              (lines.getD e default).seek + (lines.getD e default).size
                ≤ (lines.getD j default).seek := by
            intro j h1 h2 _
            simp only at h1
            have h3 := hsorted e (by omega)
            have h4 := seek_le_seek lines hsorted (e + 1) j (by omega) h2
            omega
          obtain ⟨q, rest, hout, hBq⟩ :=
            rewriteGo_out_slice orig extract fmt tr lines
              ((lines.getD e default).seek + (lines.getD e default).size)
              (hbounded e helen) fuel ((i, e).2 + 1) (lines.getD i default).seek
              hB r' hres
          have hkB : (lines.getD i default).seek
              ≤ (lines.getD e default).seek + (lines.getD e default).size := by
            have := seek_le_seek lines hsorted i e (by simpa using hke)
              (by simpa using helen)
            omega
          constructor
          · rw [← hr]
            simp
          · refine ⟨out ++ (if pre < (lines.getD i default).seek then
                sliceList orig pre (lines.getD i default).seek else []),
              sliceList orig
                ((lines.getD e default).seek + (lines.getD e default).size) q
                ++ rest, ?_⟩
            rw [← hr]
            simp only []
            rw [hout,
              sliceList_split orig (lines.getD i default).seek
                ((lines.getD e default).seek + (lines.getD e default).size) q hkB hBq]
            simp [List.append_assoc]
      · have hik3 : i < k := by omega
        have hsepik : ti.batch_range.2 < k :=
          hsep i k hik3 hk ti hf (by rw [hfind]; rfl)
        simp only [rewriteGo, if_pos hilt, hf]
        by_cases hmisi :
            ¬ (extract ti.content).length = ti.batch_range.2 - ti.batch_range.1 + 1
        · rw [if_pos hmisi]
          have hpre1 :
              (if pre < (lines.getD i default).seek then (lines.getD i default).seek
                else pre) = (lines.getD i default).seek := by
            rcases Nat.lt_or_ge pre (lines.getD i default).seek with h | h
            · rw [if_pos h]
            · rw [if_neg (by omega)]
              omega
          rw [hpre1]
          have hpre' : (lines.getD i default).seek
              ≤ (lines.getD (ti.batch_range.2 + 1) default).seek :=
            seek_le_seek lines hsorted i (ti.batch_range.2 + 1) (by omega) (by omega)
          exact ih (ti.batch_range.2 + 1) _ _ _ (by omega) hpre' (by omega)
        · rw [if_neg hmisi]
          have hn : (extract ti.content).length
              = ti.batch_range.2 - ti.batch_range.1 + 1 := not_not.mp hmisi
          have hn0 : ¬ (extract ti.content).length = 0 := by
            rw [hn]; omega
          rw [if_neg hn0]
          have hlast : i + (extract ti.content).length - 1 = ti.batch_range.2 := by
            rw [hn, hti1]
            omega
          rw [hlast]
          have hpre' : (lines.getD ti.batch_range.2 default).seek
                + (lines.getD ti.batch_range.2 default).size
              ≤ (lines.getD (ti.batch_range.2 + 1) default).seek :=
            hsorted ti.batch_range.2 (by omega)
          exact ih (ti.batch_range.2 + 1) _ _ _ (by omega) hpre' (by omega)

end Rewrite

/-- C2: on any well-formed `Textures` (sorted in-bounds lines, each
stored translation sitting on its batch's start line with its end inside
the list, batches not overlapping — the §3 data-model invariants), every
batch whose `extract_lines` count differs from `end − start + 1` is
recorded in the diagnostic failed-range list, and the original bytes
`[lines[start].seek, lines[end].seek + lines[end].size)` appear verbatim
in the output, no translated output replacing them. -/
theorem c2_shape_mismatch_passthrough {α : Type} (orig : List α)
    (extract : String → List String) (fmt : String → String → List α)
    (tr : Translator) (t : Textures) (k e : Nat) (tk : TranslatedLine)
    (hsorted : ∀ j, j + 1 < t.lines.length →
      (t.lines.getD j default).seek + (t.lines.getD j default).size
        ≤ (t.lines.getD (j + 1) default).seek)
    (hbounded : ∀ j, j < t.lines.length →
      (t.lines.getD j default).seek + (t.lines.getD j default).size ≤ orig.length)
    (hranges : ∀ j, j < t.lines.length → ∀ t',
      findTranslated (t.lines.getD j default) tr = some t' →
        t'.batch_range.1 = j ∧ j ≤ t'.batch_range.2
          ∧ t'.batch_range.2 < t.lines.length)
    (hsep : ∀ j j', j < j' → j' < t.lines.length → ∀ tj,
      findTranslated (t.lines.getD j default) tr = some tj →
      (findTranslated (t.lines.getD j' default) tr).isSome → tj.batch_range.2 < j')
    (hk : k < t.lines.length)
    (hfind : findTranslated (t.lines.getD k default) tr = some tk)
    (hrange : tk.batch_range = (k, e))
    (hmis : ¬ (extract tk.content).length = e - k + 1) :
    ∃ r, rewriteOutput orig extract fmt tr t = some r ∧
      (k, e) ∈ r.diag ∧
      ∃ u v, r.out = u ++ sliceList orig (t.lines.getD k default).seek
          ((t.lines.getD e default).seek + (t.lines.getD e default).size) ++ v :=
  rewriteGo_reach orig extract fmt tr t.lines hsorted hbounded hranges hsep
    k e tk hk hfind hrange hmis (t.lines.length + 1) 0 0 [] []
    (Nat.zero_le k) (Nat.zero_le _) (by omega)

/-- A ten-byte original file for the C2 witness. -/
def c2Orig : List Nat := [0, 1, 2, 3, 4, 5, 6, 7, 8, 9]

/-- Two sorted in-bounds lines; the first carries a translation covering
lines 0-1 whose extraction (below) yields 0 strings instead of 2. -/
def c2T : Textures :=
  ⟨[⟨2, 3, "a", false, [⟨.ChatGPT, "resp", (0, 1)⟩]⟩,
    ⟨5, 2, "b", false, []⟩], 0, "f"⟩

/-- Witness for C2: the mismatched batch (0, 1) lands in the diagnostic
list and bytes `[2, 7)` of the original pass through. -/
theorem c2_shape_mismatch_passthrough_witness :
    ∃ r, rewriteOutput c2Orig (fun _ => []) (fun _ _ => ([] : List Nat))
        .ChatGPT c2T = some r ∧
      (0, 1) ∈ r.diag ∧
      ∃ u v, r.out = u ++ sliceList c2Orig (c2T.lines.getD 0 default).seek
          ((c2T.lines.getD 1 default).seek + (c2T.lines.getD 1 default).size) ++ v :=
  c2_shape_mismatch_passthrough c2Orig (fun _ => []) (fun _ _ => ([] : List Nat))
    .ChatGPT c2T 0 1 ⟨.ChatGPT, "resp", (0, 1)⟩
    (by
      intro j hj
      have hj0 : j = 0 := by simp [c2T] at hj; omega
      subst hj0
      decide)
    (by
      intro j hj
      have hj01 : j = 0 ∨ j = 1 := by simp [c2T] at hj; omega
      rcases hj01 with h | h <;> subst h <;> decide)
    (by
      intro j hj t' ht'
      have hj01 : j = 0 ∨ j = 1 := by simp [c2T] at hj; omega
      rcases hj01 with h | h <;> subst h
      · have hcomp : findTranslated (c2T.lines.getD 0 default) Translator.ChatGPT
            = some ⟨.ChatGPT, "resp", (0, 1)⟩ := by decide
        rw [hcomp] at ht'
        have ht'' := Option.some.inj ht'
        subst ht''
        decide
      · have hcomp : findTranslated (c2T.lines.getD 1 default) Translator.ChatGPT
            = none := by decide
        rw [hcomp] at ht'
        cases ht')
    (by
      intro j j' hjj hj' tj htj hsome
      have hj'1 : j' = 1 := by simp [c2T] at hj'; omega
      subst hj'1
      have hcomp : findTranslated (c2T.lines.getD 1 default) Translator.ChatGPT
          = none := by decide
      rw [hcomp] at hsome
      simp at hsome)
    (by decide) (by decide) rfl (by decide)

end Lottr
